import Mathlib

/-!
Verification of `src/hotspot/share/memory/archiveUtils.cpp` (CDS archive
utilities): the pointer-relocation bitmap (`ArchivePtrMarker`), the dump-time
region allocator (`DumpRegion`), and the symmetric serialization closures
(`WriteClosure` / `ReadClosure`).

Shallow embedding conventions:
* machine addresses and word values are `Nat` (byte addresses; a value of `0`
  models the C++ `NULL`); words appended to the archive stream are `Int`
  (mathematical values of `intptr_t`);
* the contents of the pointer-bearing memory is an explicit map
  `mem : Nat → Nat` from a word-aligned byte address to the word stored there;
* C++ `assert` / fatal-error paths are modelled as `Option` / `Except`
  failures (`none` / `.error`): the gate distinguishes "operation succeeded
  with a new state" from "the VM aborts";
* external collaborators (`CompressedOops::encode_not_null`,
  `HeapShared::decode_from_archive`, policy queries, the object-delta
  function) are opaque parameters.
-/

namespace ArchiveUtils

/-- `sizeof(intptr_t)` on the 64-bit platforms this code targets. -/
def wordSize : Nat := 8

/-- State of the process-wide `ArchivePtrMarker` singleton, after a successful
`initialize`.  `bits` is the set of set bit indices of the `CHeapBitMap`
`_ptrmap`, `size` its current size in bits, `ptrBase` / `ptrEnd` the byte
addresses of `_ptr_base` / `_ptr_end`, and `compacted` the `_compacted` flag. -/
structure MarkerState where
  bits : Finset Nat
  size : Nat
  ptrBase : Nat
  ptrEnd : Nat
  compacted : Bool
  deriving DecidableEq

/-- `ArchivePtrMarker::mark_pointer(address* ptr_loc)`.  `mem` is the current
memory contents; `ptrLoc` the byte address of the slot.  Returns `none` on a
failed assertion (already compacted, slot value equal to `_ptr_base`,
misaligned slot), `some st'` otherwise. -/
def mark_pointer (st : MarkerState) (mem : Nat → Nat) (ptrLoc : Nat) :
    Option MarkerState :=
  if st.compacted then none
  else if st.ptrBase ≤ ptrLoc ∧ ptrLoc < st.ptrEnd then
    let value := mem ptrLoc
    if value = st.ptrBase then none
    else if value ≠ 0 then
      if ptrLoc % wordSize = 0 then
        let idx := (ptrLoc - st.ptrBase) / wordSize
        let sz := if st.size ≤ idx then (idx + 1) * 2 else st.size
        some { st with bits := insert idx st.bits, size := sz }
      else none
    else some st
  else some st

/-- `ArchivePtrMarker::clear_pointer(address* ptr_loc)`.  All of its
preconditions are asserts in the source, so their violation is `none`. -/
def clear_pointer (st : MarkerState) (ptrLoc : Nat) : Option MarkerState :=
  if st.compacted then none
  else if ¬(st.ptrBase ≤ ptrLoc ∧ ptrLoc < st.ptrEnd) then none
  else if ptrLoc % wordSize = 0 then
    let idx := (ptrLoc - st.ptrBase) / wordSize
    if idx < st.size then some { st with bits := st.bits.erase idx } else none
  else none

/-- Accumulator of `ArchivePtrBitmapCleaner`: the bitmap being cleaned and
`_max_non_null_offset`. -/
structure CleanerState where
  bits : Finset Nat
  maxNonNull : Nat
  deriving DecidableEq

/-- One `ArchivePtrBitmapCleaner::do_bit(offset)` step.  A non-null slot value
outside `[relocatable_base, relocatable_end)` fails the assert (`none`); a
null value clears the bit; otherwise `_max_non_null_offset` is updated. -/
def cleanerDoBit (mem : Nat → Nat) (pb rb re : Nat)
    (acc : Option CleanerState) (offset : Nat) : Option CleanerState :=
  match acc with
  | none => none
  | some c =>
    let v := mem (pb + offset * wordSize)
    if v ≠ 0 then
      if rb ≤ v ∧ v < re then
        some { c with maxNonNull := if c.maxNonNull < offset then offset else c.maxNonNull }
      else none
    else some { c with bits := c.bits.erase offset }

/-- `BitMap::resize(n)` semantics on the set-bit view: bits at or past the new
size are dropped. -/
def bitmapResize (bits : Finset Nat) (n : Nat) : Finset Nat :=
  bits.filter (· < n)

/-- `ArchivePtrMarker::compact(address relocatable_base, address
relocatable_end)`: run the cleaner over the bitmap — `BitMap::iterate` scans
the bit indices `0 .. size-1` in increasing order and calls `do_bit` on each
set one — then `compact(max_non_null_offset)`, which resizes to
`max_non_null_offset + 1` and sets `_compacted`. -/
def compact (st : MarkerState) (mem : Nat → Nat) (rb re : Nat) :
    Option MarkerState :=
  if st.compacted then none
  else
    match ((List.range st.size).filter fun o => decide (o ∈ st.bits)).foldl
        (cleanerDoBit mem st.ptrBase rb re) (some ⟨st.bits, 0⟩) with
    | none => none
    | some c =>
      some { st with bits := bitmapResize c.bits (c.maxNonNull + 1),
                     size := c.maxNonNull + 1,
                     compacted := true }

/-! ## DumpRegion: the dump-time region allocator -/

/-- Rounds `x` up to the next multiple of `a`.  HotSpot's `align_up` is the
bit-mask form for power-of-two `a`; for `a > 0` a power of two it agrees with
this division form. -/
def alignUp (x a : Nat) : Nat := (x + a - 1) / a * a

/-- Failure modes of the allocator.  `outOfSpace` carries the content of the
capacity-exhaustion diagnostic: the offending region's name passed to
`MetaspaceShared::report_out_of_space(_name, newtop - _top)` together with the
byte count it reports (also printed as `required = %d` by
`print_out_of_space_msg`).  `sharedDeltaExceeded` is the
`vm_exit_during_initialization` path when the archive delta outgrows
`MAX_SHARED_DELTA`.  `assertFail` covers the assertion paths. -/
inductive DumpFail where
  | assertFail
  | outOfSpace (region : String) (needed : Nat)
  | sharedDeltaExceeded
  deriving DecidableEq

/-- A `DumpRegion`.  `base`, `top`, `end_` are the three cursors (byte
addresses); `isPacked` is `_is_packed`.  `isSharedRs` models
`_rs == MetaspaceShared::shared_rs()`; `rsId` identifies the backing
`ReservedSpace` (two regions share a reservation iff their `rsId` agree) and
`rsEnd` is that reservation's `end()`.  `committed` is the commit frontier
maintained by `MetaspaceShared::commit_to`, and `mem` the region's byte
contents. -/
structure DumpRegion where
  name : String
  base : Nat
  top : Nat
  end_ : Nat
  isPacked : Bool
  isSharedRs : Bool
  rsId : Nat
  rsEnd : Nat
  committed : Nat
  mem : Nat → Nat

/-- `DumpRegion::expand_top_to(char* newtop)`.  `objDelta` models
`MetaspaceShared::object_delta_uintx` / `DynamicArchive::object_delta_uintx`
(whichever applies) and `maxDelta` the constant `MAX_SHARED_DELTA`.
The checks appear in source order: the `is_allocatable` assert (modelled as
`!is_packed`; the region is initialized by assumption), the
`newtop >= _top` assert, the out-of-space report, the shared-delta check,
then `commit_to` and the cursor update. -/
def expand_top_to (objDelta : Nat → Nat) (maxDelta : Nat) (r : DumpRegion)
    (newtop : Nat) : Except DumpFail DumpRegion :=
  if r.isPacked then .error .assertFail
  else if newtop < r.top then .error .assertFail
  else if r.end_ < newtop then .error (.outOfSpace r.name (newtop - r.top))
  else if r.isSharedRs ∧ maxDelta < objDelta newtop then .error .sharedDeltaExceeded
  else .ok { r with top := newtop, committed := max r.committed newtop }

/-- `DumpRegion::allocate(size_t num_bytes)` with object alignment `align`
(the source's `SharedSpaceObjectAlignment = KlassAlignmentInBytes`): align the
current top, expand to the aligned end, `memset(p, 0, newtop - p)`, return the
aligned start. -/
def allocate (objDelta : Nat → Nat) (maxDelta align : Nat) (r : DumpRegion)
    (numBytes : Nat) : Except DumpFail (Nat × DumpRegion) :=
  let p := alignUp r.top align
  let newtop := p + alignUp numBytes align
  match expand_top_to objDelta maxDelta r newtop with
  | .error e => .error e
  | .ok r' =>
    .ok (p, { r' with mem := fun a => if p ≤ a ∧ a < newtop then 0 else r'.mem a })

/-- `DumpRegion::pack(DumpRegion* next)` with reservation alignment `rsAlign`
(the source's `MetaspaceShared::reserved_space_alignment()`): round `top` up,
fix `end` there, set `_is_packed`, and seed the optional next region with the
same backing reservation, `base = top = this->end`, `end = _rs->end()`. -/
def pack (rsAlign : Nat) (r : DumpRegion) (next : Option DumpRegion) :
    Except DumpFail (DumpRegion × Option DumpRegion) :=
  if r.isPacked then .error .assertFail
  else
    let newEnd := alignUp r.top rsAlign
    let r' := { r with end_ := newEnd, isPacked := true }
    match next with
    | none => .ok (r', none)
    | some nx =>
      .ok (r', some { nx with isSharedRs := r.isSharedRs, rsId := r.rsId,
                              rsEnd := r.rsEnd, base := newEnd, top := newEnd,
                              end_ := r.rsEnd })

/-! ## Serialization closures (`WriteClosure` / `ReadClosure`) -/

/-- Truncation of a word to a signed 32-bit `int`, as in the source's
`(int)(intptr_t)` casts. -/
def toInt32 (w : Int) : Int := (w + 2 ^ 31) % 2 ^ 32 - 2 ^ 31

/-- Truncation of a word to an unsigned 32-bit value, as in
`CompressedOops::narrow_oop_cast` and the `(u4)` cast. -/
def toU32 (w : Int) : Nat := (w % 2 ^ 32).toNat

/-- Reinterpretation of a word as the unsigned `uintx`. -/
def toU64 (w : Int) : Nat := (w % 2 ^ 64).toNat

/-- Modelled from the spec: `DumpRegion::append_intptr_t` is declared in
`archiveUtils.hpp` (not under `src/`) with a default value for its
`need_to_mark` parameter, used by both calls in `WriteClosure::do_oop`.  The
spec states that the null-reference word is appended "not marked", which fixes
the default to `false`. -/
def appendDefaultMark : Bool := false

/-- A field of the abstract serialization protocol, holding the dump-time
value the Writer is given: a `u4` scalar, a `bool` scalar, a raw region (its
words, so its byte size is `wordSize * ws.length`), or an object reference
(`none` is the null oop). -/
inductive Field where
  | u4F (v : Nat)
  | boolF (b : Bool)
  | regionF (ws : List Int)
  | oopF (r : Option Nat)

/-- The shape of a field: what the Reader-side traversal passes to the
matching `ReadClosure` call (for a raw region, its word count). -/
inductive FieldShape where
  | u4S
  | boolS
  | regionS (n : Nat)
  | oopS
  deriving DecidableEq

/-- The value a `ReadClosure` call stores into its destination. -/
inductive ReadVal where
  | u4V (v : Nat)
  | boolV (b : Bool)
  | regionV (ws : List Int)
  | oopV (r : Option Nat)
  deriving DecidableEq

/-- The shape of a dump-time field. -/
def shapeOf : Field → FieldShape
  | .u4F _ => .u4S
  | .boolF _ => .boolS
  | .regionF ws => .regionS ws.length
  | .oopF _ => .oopS

/-- The words a `WriteClosure` appends for one field, each word paired with
its `need_to_mark` flag.  `allowed` models
`HeapShared::is_heap_object_archiving_allowed()` and `encode` models
`CompressedOops::encode_not_null`.

* `do_u4` / `do_bool` / `do_tag` are declared in `archiveUtils.hpp` (not under
  `src/`); modelled from the spec: a scalar appends one word containing the
  value, not marked.
* `do_region` (in `src/`) asserts word alignment of `start` and `size` (a raw
  region is given here by its words, so both hold by construction), writes
  `do_tag((int)size)`, then appends each word with `need_to_mark = true`.
* `do_oop` (in `src/`) appends either the zero word or
  `encode_not_null(*o)` — both through `append_intptr_t`'s defaulted
  `need_to_mark` — and asserts the archiving policy for a non-null oop. -/
def writeField (allowed : Bool) (encode : Nat → Nat) : Field → Option (List (Int × Bool))
  | .u4F v => some [((v : Int), appendDefaultMark)]
  | .boolF b => some [((if b then 1 else 0 : Int), appendDefaultMark)]
  | .regionF ws =>
    some ((toInt32 ((wordSize * ws.length : Nat) : Int), appendDefaultMark)
          :: ws.map (fun w => (w, true)))
  | .oopF none => some [(0, appendDefaultMark)]
  | .oopF (some r) =>
    if allowed then some [(((encode r : Nat) : Int), appendDefaultMark)] else none

/-- `WriteClosure` over a whole field sequence: concatenation of the
per-field words. -/
def writeFields (allowed : Bool) (encode : Nat → Nat) : List Field → Option (List (Int × Bool))
  | [] => some []
  | f :: fs =>
    match writeField allowed encode f with
    | none => none
    | some out =>
      match writeFields allowed encode fs with
      | none => none
      | some outs => some (out ++ outs)

/-- `ReadClosure::nextPtr()`: consume one word of the mapped buffer.  Running
past the end of the buffer is modelled as failure. -/
def nextPtr : List Int → Option (Int × List Int)
  | [] => none
  | w :: rest => some (w, rest)

/-- `ReadClosure::do_tag(int tag)`: read one word, cast it to `int`, fail
unless it equals the expected tag. -/
def do_tag_read (tag : Int) (s : List Int) : Option (List Int) :=
  match nextPtr s with
  | none => none
  | some (w, rest) => if toInt32 w = tag then some rest else none

/-- The verbatim word copy of `ReadClosure::do_region`'s loop: read `n`
words. -/
def readWords : Nat → List Int → Option (List Int × List Int)
  | 0, s => some ([], s)
  | n + 1, s =>
    match nextPtr s with
    | none => none
    | some (w, rest) =>
      match readWords n rest with
      | none => none
      | some (ws, rest') => some (w :: ws, rest')

/-- `ReadClosure::do_oop(oop* p)`.  `mapped` models
`HeapShared::open_archive_heap_region_mapped()`, `allowed` the archiving
policy, `decode` models `HeapShared::decode_from_archive` (which biases
against the actual load-time base address), and `destOld` the value `*p` held
before the call — the source reads one word, narrow-casts it, stores null if
the narrow oop is null or the heap region is unmapped, and otherwise asserts
the policy before decoding; it never inspects `destOld`. -/
def do_oop (mapped allowed : Bool) (decode : Nat → Nat) (destOld : Option Nat)
    (s : List Int) : Option (Option Nat × List Int) :=
  match nextPtr s with
  | none => none
  | some (w, rest) =>
    let o := toU32 w
    if o = 0 ∨ mapped = false then some (none, rest)
    else if allowed then some (some (decode o), rest)
    else none

/-- `ReadClosure::do_ptr(void** p)`: assert the destination is null, read one
word, assert it is non-negative or strictly below `-100` (the tag range), and
store it.  `destOld` is the value `*p` held before the call (a word; `0` is
the C++ `NULL`). -/
def do_ptr (destOld : Int) (s : List Int) : Option (Int × List Int) :=
  if destOld ≠ 0 then none
  else
    match nextPtr s with
    | none => none
    | some (w, rest) => if 0 ≤ w ∨ w < -100 then some (w, rest) else none

/-- One `ReadClosure` call of the given shape replayed against the buffer:
`do_u4` stores `(u4)(uintx(obj))`, `do_bool` stores `(bool)(uintx(obj))`,
`do_region` checks the size tag then copies the words verbatim, and a
reference goes through `do_oop` (whose fresh destination is null). -/
def readShape (mapped allowed : Bool) (decode : Nat → Nat) :
    FieldShape → List Int → Option (ReadVal × List Int)
  | .u4S, s =>
    match nextPtr s with
    | none => none
    | some (w, rest) => some (.u4V (toU64 w % 2 ^ 32), rest)
  | .boolS, s =>
    match nextPtr s with
    | none => none
    | some (w, rest) => some (.boolV (decide (toU64 w ≠ 0)), rest)
  | .regionS n, s =>
    match do_tag_read (toInt32 ((wordSize * n : Nat) : Int)) s with
    | none => none
    | some rest =>
      match readWords n rest with
      | none => none
      | some (ws, rest') => some (.regionV ws, rest')
  | .oopS, s =>
    match do_oop mapped allowed decode none s with
    | none => none
    | some (r, rest) => some (.oopV r, rest)

/-- A `ReadClosure` replay of a whole shape sequence. -/
def readShapes (mapped allowed : Bool) (decode : Nat → Nat) :
    List FieldShape → List Int → Option (List ReadVal × List Int)
  | [], s => some ([], s)
  | sh :: shs, s =>
    match readShape mapped allowed decode sh s with
    | none => none
    | some (v, rest) =>
      match readShapes mapped allowed decode shs rest with
      | none => none
      | some (vs, rest') => some (v :: vs, rest')

/-- Validity of a dump-time field value: a `u4` scalar fits in 32 bits and
raw-region words are `intptr_t` values. -/
def fieldOk : Field → Prop
  | .u4F v => v < 2 ^ 32
  | .boolF _ => True
  | .regionF ws => ∀ w ∈ ws, -(2 ^ 63) ≤ w ∧ w < 2 ^ 63
  | .oopF _ => True

/-- The value the Reader is expected to reconstruct for a field: scalars and
raw regions verbatim, a null reference as null, a non-null reference as the
decode of its encoding (in particular non-null). -/
def valOf (decode encode : Nat → Nat) : Field → ReadVal
  | .u4F v => .u4V v
  | .boolF b => .boolV b
  | .regionF ws => .regionV ws
  | .oopF none => .oopV none
  | .oopF (some r) => .oopV (some (decode (encode r)))

instance fieldOkDecidable : DecidablePred fieldOk := fun f =>
  match f with
  | .u4F v => inferInstanceAs (Decidable (v < 2 ^ 32))
  | .boolF _ => inferInstanceAs (Decidable True)
  | .regionF ws => inferInstanceAs (Decidable (∀ w ∈ ws, -(2 ^ 63) ≤ w ∧ w < 2 ^ 63))
  | .oopF _ => inferInstanceAs (Decidable True)

/-! ## Concrete instances used by witnesses and counterexamples -/

/-- A marker over `[64, 128)` with an empty, 4-bit bitmap. -/
def markSt : MarkerState := ⟨∅, 4, 64, 128, false⟩

/-- Memory holding a non-null value only in the slot at address 72. -/
def markMem : Nat → Nat := fun a => if a = 72 then 200 else 0

/-- The spec's compaction scenario: a bitmap over 1024 pointer-sized slots
(based at address 0), slots 5 and 900 marked. -/
def c3St : MarkerState := ⟨{5, 900}, 1024, 0, 8192, false⟩

/-- Slot 5 (address 40) holds 150, inside the relocatable range `[100, 200)`;
slot 900's live value is null. -/
def c3Mem : Nat → Nat := fun a => if a = 40 then 150 else 0

/-- A one-bit marker whose single slot holds a relocatable value. -/
def c9St : MarkerState := ⟨{0}, 4, 0, 64, false⟩

/-- Memory where every slot holds 1. -/
def c9Mem : Nat → Nat := fun _ => 1

/-- An unpacked region `[0, 100)` with untouched memory holding 7. -/
def rEx4 : DumpRegion :=
  { name := "c4", base := 0, top := 0, end_ := 100, isPacked := false,
    isSharedRs := false, rsId := 0, rsEnd := 100, committed := 0,
    mem := fun _ => 7 }

/-- `rEx4` after `allocate` of 10 bytes at 8-byte object alignment: `top`
advanced to the aligned end 16 and `[0, 16)` zero-filled. -/
def rEx4' : DumpRegion :=
  { rEx4 with top := 16, committed := 16,
              mem := fun a => if 0 ≤ a ∧ a < 16 then 0 else rEx4.mem a }

/-- An unpacked region `[0, 10)`, used to exercise the out-of-space path. -/
def rEx5 : DumpRegion :=
  { name := "t5", base := 0, top := 0, end_ := 10, isPacked := false,
    isSharedRs := false, rsId := 0, rsEnd := 10, committed := 0,
    mem := fun _ => 0 }

/-- An unpacked region whose `top` (13) is not 16-aligned. -/
def rEx6 : DumpRegion :=
  { name := "a6", base := 0, top := 13, end_ := 100, isPacked := false,
    isSharedRs := false, rsId := 3, rsEnd := 4096, committed := 13,
    mem := fun _ => 0 }

/-- A follower region, before being seeded by `pack`. -/
def nxEx6 : DumpRegion :=
  { name := "b6", base := 0, top := 0, end_ := 0, isPacked := false,
    isSharedRs := true, rsId := 9, rsEnd := 0, committed := 0,
    mem := fun _ => 0 }

/-- A concrete field sequence covering every protocol field kind. -/
def fsEx : List Field :=
  [.u4F 7, .boolF true, .regionF [170, 0], .oopF none, .oopF (some 3)]

/-- The words `WriteClosure` appends for `fsEx` under the constant encoding
`fun _ => 1`. -/
def outEx : List (Int × Bool) :=
  [(7, false), (1, false),
   (16, false), (170, true), (0, true),
   (0, false), (1, false)]

/-! ## Helper lemmas -/

theorem alignUp_mod (x a : Nat) : alignUp x a % a = 0 :=
  Nat.mul_mod_left _ _

theorem le_alignUp (x a : Nat) (ha : 0 < a) : x ≤ alignUp x a := by
  rcases Nat.eq_zero_or_pos x with hx | hx
  · subst hx; exact Nat.zero_le _
  · unfold alignUp
    have hxa : x + a - 1 = (x - 1) + a := by omega
    rw [hxa, Nat.add_div_right _ ha, Nat.succ_mul]
    have hdm := Nat.div_add_mod' (x - 1) a
    have hlt := Nat.mod_lt (x - 1) ha
    omega

theorem cleaner_foldl_bot (mem : Nat → Nat) (pb rb re : Nat) (l : List Nat) :
    l.foldl (cleanerDoBit mem pb rb re) none = none := by
  induction l with
  | nil => rfl
  | cons a t ih => rw [List.foldl_cons]; exact ih

theorem le_foldl_max (l : List Nat) (m : Nat) : m ≤ l.foldl max m := by
  induction l generalizing m with
  | nil => exact Nat.le_refl m
  | cons a t ih =>
    rw [List.foldl_cons]
    exact Nat.le_trans (Nat.le_max_left m a) (ih (max m a))

theorem mem_le_foldl_max (l : List Nat) (m x : Nat) (hx : x ∈ l) :
    x ≤ l.foldl max m := by
  induction l generalizing m with
  | nil => cases hx
  | cons a t ih =>
    rw [List.foldl_cons]
    rcases List.mem_cons.mp hx with rfl | hxt
    · exact Nat.le_trans (Nat.le_max_right m x) (le_foldl_max t _)
    · exact ih (max m a) hxt

theorem foldl_max_eq_or_mem (l : List Nat) (m : Nat) :
    l.foldl max m = m ∨ l.foldl max m ∈ l := by
  induction l generalizing m with
  | nil => exact Or.inl rfl
  | cons a t ih =>
    rw [List.foldl_cons]
    rcases ih (max m a) with h | h
    · rw [h]
      rcases Nat.le_total m a with hma | ham
      · rw [Nat.max_eq_right hma]; exact Or.inr (List.mem_cons_self a t)
      · rw [Nat.max_eq_left ham]; exact Or.inl rfl
    · exact Or.inr (List.mem_cons_of_mem a h)

theorem erase_sdiff_insert (B S : Finset Nat) (a : Nat) :
    B.erase a \ S = B \ insert a S := by
  ext x
  simp only [Finset.mem_sdiff, Finset.mem_erase, Finset.mem_insert]
  tauto

/-- Running the cleaner over a list of offsets whose non-null values all lie
in the relocatable range clears exactly the null offsets and folds `Nat.max`
over the non-null ones. -/
theorem cleaner_foldl_char (mem : Nat → Nat) (pb rb re : Nat) (l : List Nat)
    (hall : ∀ o ∈ l, mem (pb + o * wordSize) ≠ 0 →
      rb ≤ mem (pb + o * wordSize) ∧ mem (pb + o * wordSize) < re) :
    ∀ (B : Finset Nat) (m : Nat),
    l.foldl (cleanerDoBit mem pb rb re) (some ⟨B, m⟩)
      = some ⟨B \ (l.filter fun o => decide (mem (pb + o * wordSize) = 0)).toFinset,
              (l.filter fun o => decide (mem (pb + o * wordSize) ≠ 0)).foldl max m⟩ := by
  induction l with
  | nil => intro B m; simp
  | cons a t ih =>
    intro B m
    have hrec := ih (fun o ho h => hall o (List.mem_cons_of_mem a ho) h)
    by_cases hz : mem (pb + a * wordSize) = 0
    · have hstep : cleanerDoBit mem pb rb re (some ⟨B, m⟩) a
          = some ⟨B.erase a, m⟩ := by
        simp [cleanerDoBit, hz]
      have hfn : ((a :: t).filter fun o => decide (mem (pb + o * wordSize) = 0))
          = a :: (t.filter fun o => decide (mem (pb + o * wordSize) = 0)) := by
        simp [List.filter_cons, hz]
      have hfz : ((a :: t).filter fun o => decide (mem (pb + o * wordSize) ≠ 0))
          = t.filter fun o => decide (mem (pb + o * wordSize) ≠ 0) := by
        simp [List.filter_cons, hz]
      rw [List.foldl_cons, hstep, hrec (B.erase a) m, hfn, hfz,
        List.toFinset_cons, ← erase_sdiff_insert]
    · have hin := hall a (List.mem_cons_self a t) hz
      have hmax : (if m < a then a else m) = max m a := by
        rcases Nat.lt_or_ge m a with h | h
        · rw [if_pos h, Nat.max_eq_right (Nat.le_of_lt h)]
        · rw [if_neg (Nat.not_lt.mpr h), Nat.max_eq_left h]
      have hstep : cleanerDoBit mem pb rb re (some ⟨B, m⟩) a
          = some ⟨B, max m a⟩ := by
        simp [cleanerDoBit, hz, hin, hmax]
      have hfn : ((a :: t).filter fun o => decide (mem (pb + o * wordSize) = 0))
          = t.filter fun o => decide (mem (pb + o * wordSize) = 0) := by
        simp [List.filter_cons, hz]
      have hfz : ((a :: t).filter fun o => decide (mem (pb + o * wordSize) ≠ 0))
          = a :: (t.filter fun o => decide (mem (pb + o * wordSize) ≠ 0)) := by
        simp [List.filter_cons, hz]
      rw [List.foldl_cons, hstep, hrec B (max m a), hfn, hfz, List.foldl_cons]

/-- If some visited offset holds a non-null value outside the relocatable
range, the cleaner aborts. -/
theorem cleaner_foldl_none (mem : Nat → Nat) (pb rb re : Nat) (l : List Nat)
    (b : Nat) (hb : b ∈ l) (hnz : mem (pb + b * wordSize) ≠ 0)
    (hout : ¬(rb ≤ mem (pb + b * wordSize) ∧ mem (pb + b * wordSize) < re)) :
    ∀ acc : Option CleanerState, l.foldl (cleanerDoBit mem pb rb re) acc = none := by
  induction l with
  | nil => cases hb
  | cons a t ih =>
    intro acc
    rw [List.foldl_cons]
    rcases List.mem_cons.mp hb with rfl | hbt
    · have hstep : cleanerDoBit mem pb rb re acc b = none := by
        cases acc with
        | none => rfl
        | some c => simp [cleanerDoBit, hnz, hout]
      rw [hstep]
      exact cleaner_foldl_bot mem pb rb re t
    · exact ih hbt (cleanerDoBit mem pb rb re acc a)

theorem toInt32_idem (x : Int) : toInt32 (toInt32 x) = toInt32 x := by
  unfold toInt32
  omega

theorem readWords_append (ws rest : List Int) :
    readWords ws.length (ws ++ rest) = some (ws, rest) := by
  induction ws with
  | nil => rfl
  | cons w t ih => simp [readWords, nextPtr, ih]

theorem read_u4_branch (decode : Nat → Nat) (v : Nat) (hok : v < 2 ^ 32)
    (rest : List Int) :
    readShape true true decode (.u4S) (((v : Nat) : Int) :: rest)
      = some (.u4V v, rest) := by
  simp only [readShape, nextPtr, Option.some.injEq, Prod.mk.injEq,
    ReadVal.u4V.injEq, toU64]
  refine ⟨?_, trivial⟩
  omega

theorem read_bool_branch (decode : Nat → Nat) (b : Bool) (rest : List Int) :
    readShape true true decode (.boolS) ((if b then 1 else 0 : Int) :: rest)
      = some (.boolV b, rest) := by
  cases b <;> simp [readShape, nextPtr, toU64]

theorem do_tag_read_self (t : Int) (s : List Int) :
    do_tag_read (toInt32 t) (toInt32 t :: s) = some s := by
  simp only [do_tag_read, nextPtr]
  rw [toInt32_idem, if_pos rfl]

theorem readShape_regionS (m a : Bool) (d : Nat → Nat) (n : Nat)
    (s s2 ws rest2 : List Int)
    (h1 : do_tag_read (toInt32 ((wordSize * n : Nat) : Int)) s = some s2)
    (h2 : readWords n s2 = some (ws, rest2)) :
    readShape m a d (.regionS n) s = some (.regionV ws, rest2) := by
  simp only [readShape, h1, h2]

theorem read_region_branch (decode : Nat → Nat) (ws rest : List Int) :
    readShape true true decode (.regionS ws.length)
        (toInt32 ((wordSize * ws.length : Nat) : Int) :: (ws ++ rest))
      = some (.regionV ws, rest) :=
  readShape_regionS true true decode ws.length _ _ ws rest
    (do_tag_read_self _ _) (readWords_append ws rest)

theorem read_oop_none_branch (decode : Nat → Nat) (rest : List Int) :
    readShape true true decode .oopS ((0 : Int) :: rest)
      = some (.oopV none, rest) := by
  simp [readShape, do_oop, nextPtr, toU32]

theorem read_oop_some_branch (encode decode : Nat → Nat)
    (henc : ∀ r, 0 < encode r ∧ encode r < 2 ^ 32) (x : Nat) (rest : List Int) :
    readShape true true decode .oopS (((encode x : Nat) : Int) :: rest)
      = some (.oopV (some (decode (encode x))), rest) := by
  have ho : toU32 (((encode x : Nat) : Int)) = encode x := by
    have h2 := (henc x).2
    unfold toU32
    omega
  have hnz : encode x ≠ 0 := Nat.pos_iff_ne_zero.mp (henc x).1
  simp [readShape, do_oop, nextPtr, ho, hnz]

/-- One-field round trip: replaying a field of the written shape against the
words the Writer appended reconstructs the expected value and leaves the rest
of the buffer. -/
theorem readShape_writeField (encode decode : Nat → Nat)
    (henc : ∀ r, 0 < encode r ∧ encode r < 2 ^ 32)
    (f : Field) (hok : fieldOk f) (out : List (Int × Bool)) (rest : List Int)
    (hw : writeField true encode f = some out) :
    readShape true true decode (shapeOf f) (out.map Prod.fst ++ rest)
      = some (valOf decode encode f, rest) := by
  cases f with
  | u4F v =>
    simp only [writeField, Option.some.injEq] at hw
    subst hw
    simp only [shapeOf, valOf, List.map_cons, List.map_nil, List.cons_append,
      List.nil_append]
    exact read_u4_branch decode v hok rest
  | boolF b =>
    simp only [writeField, Option.some.injEq] at hw
    subst hw
    simp only [shapeOf, valOf, List.map_cons, List.map_nil, List.cons_append,
      List.nil_append]
    exact read_bool_branch decode b rest
  | regionF ws =>
    simp only [writeField, Option.some.injEq] at hw
    subst hw
    have hmap : ((ws.map fun w => (w, true)).map Prod.fst) = ws := by
      clear hok
      induction ws with
      | nil => rfl
      | cons w t ih => simp only [List.map_cons, List.cons.injEq]
                       exact ⟨trivial, ih⟩
    simp only [shapeOf, valOf, List.map_cons, List.cons_append, hmap]
    exact read_region_branch decode ws rest
  | oopF r =>
    cases r with
    | none =>
      simp only [writeField, Option.some.injEq] at hw
      subst hw
      simp only [shapeOf, valOf, List.map_cons, List.map_nil, List.cons_append,
        List.nil_append]
      exact read_oop_none_branch decode rest
    | some x =>
      simp only [writeField, if_pos, Option.some.injEq] at hw
      subst hw
      simp only [shapeOf, valOf, List.map_cons, List.map_nil, List.cons_append,
        List.nil_append]
      exact read_oop_some_branch encode decode henc x rest

/-- Reduction of `compact` when the cleaner pass finishes. -/
theorem compact_eq (st : MarkerState) (mem : Nat → Nat) (rb re : Nat)
    (hc : st.compacted = false) (A : Finset Nat) (M : Nat)
    (hf : ((List.range st.size).filter fun o => decide (o ∈ st.bits)).foldl
        (cleanerDoBit mem st.ptrBase rb re) (some ⟨st.bits, 0⟩) = some ⟨A, M⟩) :
    compact st mem rb re
      = some { st with bits := bitmapResize A (M + 1), size := M + 1,
                       compacted := true } := by
  unfold compact
  rw [if_neg (by simp [hc]), hf]

/-- Reduction of `compact` when the cleaner pass aborts. -/
theorem compact_none (st : MarkerState) (mem : Nat → Nat) (rb re : Nat)
    (hc : st.compacted = false)
    (hf : ((List.range st.size).filter fun o => decide (o ∈ st.bits)).foldl
        (cleanerDoBit mem st.ptrBase rb re) (some ⟨st.bits, 0⟩) = none) :
    compact st mem rb re = none := by
  unfold compact
  rw [if_neg (by simp [hc]), hf]

/-! ## Claims -/

/-- **C1**. Round-trip law: for every valid write sequence (u4 scalars fit in
32 bits, raw-region words are `intptr_t` values, the archiving policy allows,
the heap region is mapped at load time, and the heap subsystem's non-null
encoding is a non-zero 32-bit value), a Reader replaying the identical field
sequence against the emitted words reproduces every scalar value, every raw
region byte-for-byte, and every reference's null/non-null state exactly:
`valOf` maps a null reference to null and a non-null one to the decode of its
encoding. -/
theorem C1_round_trip (encode decode : Nat → Nat) (fs : List Field)
    (out : List (Int × Bool)) (rest : List Int)
    (henc : ∀ r, 0 < encode r ∧ encode r < 2 ^ 32)
    (hok : ∀ f ∈ fs, fieldOk f)
    (hw : writeFields true encode fs = some out) :
    readShapes true true decode (fs.map shapeOf) (out.map Prod.fst ++ rest)
      = some (fs.map (valOf decode encode), rest) := by
  induction fs generalizing out rest with
  | nil =>
    simp only [writeFields, Option.some.injEq] at hw
    subst hw
    simp [readShapes]
  | cons f t ih =>
    simp only [writeFields] at hw
    cases hwf : writeField true encode f with
    | none => rw [hwf] at hw; exact absurd hw (by simp)
    | some o1 =>
      rw [hwf] at hw
      cases hwt : writeFields true encode t with
      | none => rw [hwt] at hw; exact absurd hw (by simp)
      | some o2 =>
        rw [hwt] at hw
        simp only [Option.some.injEq] at hw
        subst hw
        have h1 := readShape_writeField encode decode henc f
          (hok f (List.mem_cons_self f t)) o1 (o2.map Prod.fst ++ rest) hwf
        have h2 := ih o2 rest (fun g hg => hok g (List.mem_cons_of_mem f hg)) hwt
        simp only [List.map_cons, List.map_append, List.append_assoc, readShapes,
          h1, h2]

/-- **C1** witness: the sequence `fsEx` (a u4, a bool, a two-word raw region,
a null and a non-null reference) written under the constant non-null encoding
`fun _ => 1` and replayed with decoding `fun o => o + 41`. -/
theorem C1_round_trip_witness :
    readShapes true true (fun o => o + 41) (fsEx.map shapeOf)
        ((outEx.map Prod.fst) ++ [99])
      = some (fsEx.map (valOf (fun o => o + 41) (fun _ => 1)), [99]) :=
  C1_round_trip (fun _ => 1) (fun o => o + 41) fsEx outEx [99]
    (fun r => ⟨Nat.one_pos, by norm_num⟩) (by decide) (by decide)

/-- **C2**. For every slot address, `mark_pointer` is a no-op outside
`[ptr_base, ptr_end)`; for an in-range slot holding a non-null value (one
that passes the bottom-of-archive and alignment asserts) it sets bit
`(slot_address - ptr_base) / wordsize`, growing the bitmap doubling-style
when that index is beyond the current size; for an in-range null slot no bit
is set. -/
theorem C2_mark_pointer (st : MarkerState) (mem : Nat → Nat) (loc : Nat)
    (hc : st.compacted = false) :
    (¬(st.ptrBase ≤ loc ∧ loc < st.ptrEnd) → mark_pointer st mem loc = some st)
    ∧ (st.ptrBase ≤ loc ∧ loc < st.ptrEnd → mem loc ≠ 0 → mem loc ≠ st.ptrBase →
        loc % wordSize = 0 →
        mark_pointer st mem loc
          = some { st with
              bits := insert ((loc - st.ptrBase) / wordSize) st.bits,
              size := if st.size ≤ (loc - st.ptrBase) / wordSize
                      then ((loc - st.ptrBase) / wordSize + 1) * 2
                      else st.size })
    ∧ (st.ptrBase ≤ loc ∧ loc < st.ptrEnd → mem loc = 0 → st.ptrBase ≠ 0 →
        mark_pointer st mem loc = some st) := by
  refine ⟨fun h => by simp [mark_pointer, hc, h], fun hin hnz hnb hal => ?_,
          fun hin hz hb => ?_⟩
  · simp [mark_pointer, hc, hin, hnb, hnz, hal]
  · have hnb : ¬(0 : Nat) = st.ptrBase := fun h => hb h.symm
    simp [mark_pointer, hc, hin, hz, hnb]

/-- **C2** witness: marking the in-range slot at address 72 (value 200) sets
bit `(72 - 64) / 8 = 1`. -/
theorem C2_mark_pointer_witness :
    mark_pointer markSt markMem 72 = some ⟨{1}, 4, 64, 128, false⟩ := by
  have h := (C2_mark_pointer markSt markMem 72 rfl).2.1 (by decide) (by decide)
    (by decide) (by decide)
  rw [h]; decide

/-- **C9**. After a successful compaction the marker is flagged compacted, and
a second `compact`, or any later `mark_pointer` or `clear_pointer`, fails. -/
theorem C9_compact_once (st st' : MarkerState) (mem : Nat → Nat)
    (rb re loc : Nat) (h : compact st mem rb re = some st') :
    st'.compacted = true
    ∧ compact st' mem rb re = none
    ∧ mark_pointer st' mem loc = none
    ∧ clear_pointer st' loc = none := by
  have hcpt : st'.compacted = true := by
    unfold compact at h
    split at h
    · exact absurd h (by simp)
    · split at h
      · exact absurd h (by simp)
      · injection h with h'
        rw [← h']
  refine ⟨hcpt, ?_, ?_, ?_⟩
  · simp [compact, hcpt]
  · simp [mark_pointer, hcpt]
  · simp [clear_pointer, hcpt]

/-- **C9** witness: after compacting `c9St`, every further operation fails. -/
theorem C9_compact_once_witness :
    (⟨{0}, 1, 0, 64, true⟩ : MarkerState).compacted = true
    ∧ compact ⟨{0}, 1, 0, 64, true⟩ c9Mem 1 10 = none
    ∧ mark_pointer ⟨{0}, 1, 0, 64, true⟩ c9Mem 8 = none
    ∧ clear_pointer ⟨{0}, 1, 0, 64, true⟩ 8 = none :=
  C9_compact_once c9St ⟨{0}, 1, 0, 64, true⟩ c9Mem 1 10 8 (by decide)

/-- **C10**. `do_ptr` fails on a non-null destination; it fails on any word in
the tag range `[-100, -1]`; and it stores any word that is non-negative or
strictly below `-100`. -/
theorem C10_do_ptr (dOld w : Int) (s : List Int) :
    (dOld ≠ 0 → do_ptr dOld (w :: s) = none)
    ∧ (-100 ≤ w → w ≤ -1 → do_ptr 0 (w :: s) = none)
    ∧ ((0 ≤ w ∨ w < -100) → do_ptr 0 (w :: s) = some (w, s)) := by
  refine ⟨fun h => by simp [do_ptr, h], fun h1 h2 => ?_, fun h => ?_⟩
  · have hno : ¬(0 ≤ w ∨ w < -100) := by omega
    simp [do_ptr, nextPtr, hno]
  · simp [do_ptr, nextPtr, h]

/-- **C10** witness: a non-null destination fails, the tag-range word `-50`
fails, and the plain word `7` is stored. -/
theorem C10_do_ptr_witness :
    do_ptr 5 (-50 :: []) = none
    ∧ do_ptr 0 (-50 :: []) = none
    ∧ do_ptr 0 (7 :: []) = some (7, []) :=
  ⟨(C10_do_ptr 5 (-50) []).1 (by decide),
   (C10_do_ptr 5 (-50) []).2.1 (by decide) (by decide),
   (C10_do_ptr 5 7 []).2.2 (Or.inl (by decide))⟩

/-- **C7** counterexample: with the archiving policy allowing and encoding
`fun n => n + 1`, writing the non-null reference `5` appends the encoded word
`6` with `need_to_mark = false` — not as a marked word as the claim states. -/
theorem C7_counterexample :
    writeField true (fun n => n + 1) (.oopF (some 5)) = some [((6 : Int), false)]
    ∧ writeField true (fun n => n + 1) (.oopF (some 5)) ≠ some [((6 : Int), true)] := by
  constructor
  · rfl
  · decide

/-- **C7** (amended): the Writer's reference operation appends a zero word
for a null reference and, when the archiving policy allows, the encoded
non-null value for a non-null reference; both words carry the same defaulted
`need_to_mark = false` (neither is marked); a non-null reference with the
policy forbidding fails. -/
theorem C7_do_oop_write (allowed : Bool) (encode : Nat → Nat) (r : Nat) :
    writeField allowed encode (.oopF none) = some [(0, false)]
    ∧ (allowed = true →
        writeField allowed encode (.oopF (some r))
          = some [(((encode r : Nat) : Int), false)])
    ∧ (allowed = false → writeField allowed encode (.oopF (some r)) = none) := by
  refine ⟨rfl, fun h => ?_, fun h => ?_⟩
  · simp [writeField, h, appendDefaultMark]
  · simp [writeField, h]

/-- **C7** witness: both policy outcomes at a concrete encoding. -/
theorem C7_do_oop_write_witness :
    writeField true (fun n => n * 2 + 1) (.oopF (some 3)) = some [((7 : Int), false)]
    ∧ writeField false (fun n => n * 2 + 1) (.oopF (some 3)) = none :=
  ⟨(C7_do_oop_write true (fun n => n * 2 + 1) 3).2.1 rfl,
   (C7_do_oop_write false (fun n => n * 2 + 1) 3).2.2 rfl⟩

/-- **C8** counterexample: `ReadClosure::do_oop` does not fail on a non-null
destination — with `*dest = 7` beforehand it still succeeds (and stores null
for the null word). -/
theorem C8_counterexample :
    do_oop true true (fun o => o) (some 7) [0] = some (none, [])
    ∧ do_oop true true (fun o => o) (some 7) [0] ≠ none := by
  constructor
  · rfl
  · decide

/-- **C8** (amended): the Reader's reference operation ignores the
destination's prior value (the write-once check belongs to `do_ptr`, not
`do_oop`); it stores null whenever the read word narrow-casts to null or the
archive's object-heap region was not mapped; otherwise it fails unless the
archiving policy allows, and then stores the heap subsystem's decoding of the
word (biased against the load-time base). -/
theorem C8_do_oop_read (mapped allowed : Bool) (decode : Nat → Nat)
    (dOld : Option Nat) (w : Int) (s : List Int) :
    do_oop mapped allowed decode dOld (w :: s)
      = do_oop mapped allowed decode none (w :: s)
    ∧ (toU32 w = 0 ∨ mapped = false →
        do_oop mapped allowed decode dOld (w :: s) = some (none, s))
    ∧ (toU32 w ≠ 0 → mapped = true → allowed = true →
        do_oop mapped allowed decode dOld (w :: s)
          = some (some (decode (toU32 w)), s))
    ∧ (toU32 w ≠ 0 → mapped = true → allowed = false →
        do_oop mapped allowed decode dOld (w :: s) = none) := by
  refine ⟨rfl, fun h => ?_, fun h1 h2 h3 => ?_, fun h1 h2 h3 => ?_⟩
  · simp [do_oop, nextPtr]
    exact fun hne => by rcases h with h | h; exact absurd h hne; exact h
  · simp [do_oop, nextPtr, h1, h2, h3]
  · simp [do_oop, nextPtr, h1, h2, h3]

/-- **C8** witness: a non-null word decodes with the destination already
non-null, and an unmapped heap region stores null. -/
theorem C8_do_oop_read_witness :
    do_oop true true (fun o => o + 1) (some 9) (5 :: []) = some (some 6, [])
    ∧ do_oop false true (fun o => o + 1) none (5 :: []) = some (none, []) :=
  ⟨(C8_do_oop_read true true (fun o => o + 1) (some 9) 5 []).2.2.1
      (by decide) rfl rfl,
   (C8_do_oop_read false true (fun o => o + 1) none 5 []).2.1 (Or.inr rfl)⟩

/-- **C5** counterexample: growing `rEx5` (capacity 10, `top = 0`) to
`newtop = 16` reports 16 — the full byte count the allocation needed
(`newtop - top`) — not the shortfall past `end` (`16 - 10 = 6`). -/
theorem C5_counterexample :
    expand_top_to (fun _ => 0) 0 rEx5 16
      ≠ .error (.outOfSpace rEx5.name (16 - 10)) := by
  intro hcl
  have h : expand_top_to (fun _ => 0) 0 rEx5 16
      = .error (.outOfSpace rEx5.name 16) := rfl
  rw [h] at hcl
  simp at hcl

/-- **C5** (amended): whenever an allocation would advance a region's top
past its end, `expand_top_to` fails with the capacity-exhaustion diagnostic
naming that region and reporting the byte count the allocation needed
(`newtop - top`); the cursor is never silently truncated or wrapped (no `ok`
state is produced). -/
theorem C5_expand_top_to (objDelta : Nat → Nat) (maxDelta : Nat)
    (r : DumpRegion) (newtop : Nat) (hp : r.isPacked = false)
    (hg : r.top ≤ newtop) (he : r.end_ < newtop) :
    expand_top_to objDelta maxDelta r newtop
      = .error (.outOfSpace r.name (newtop - r.top)) := by
  have h2 : ¬(newtop < r.top) := by omega
  simp [expand_top_to, hp, h2, he]

/-- **C5** witness: the out-of-space failure at the concrete region `rEx5`. -/
theorem C5_expand_top_to_witness :
    expand_top_to (fun _ => 0) 0 rEx5 16
      = .error (.outOfSpace rEx5.name 16) :=
  C5_expand_top_to (fun _ => 0) 0 rEx5 16 rfl (by decide) (by decide)

/-- **C6**. `pack` rounds `top` up to the reservation alignment, fixes `end`
there, marks the region immutable (every further `expand_top_to` on it
fails), and seeds the given next region so that its `base` and `top` equal
this region's new `end`, with the same backing reservation (`rsId`) and the
reservation's end as its limit. -/
theorem C6_pack (rsAlign : Nat) (r nx : DumpRegion) (hp : r.isPacked = false) :
    ∃ r' nx', pack rsAlign r (some nx) = .ok (r', some nx')
      ∧ r'.end_ = alignUp r.top rsAlign
      ∧ r'.isPacked = true
      ∧ (∀ objDelta maxDelta newtop,
          expand_top_to objDelta maxDelta r' newtop = .error .assertFail)
      ∧ nx'.base = alignUp r.top rsAlign
      ∧ nx'.top = alignUp r.top rsAlign
      ∧ nx'.rsId = r.rsId
      ∧ nx'.end_ = r.rsEnd := by
  refine ⟨{ r with end_ := alignUp r.top rsAlign, isPacked := true },
          { nx with isSharedRs := r.isSharedRs, rsId := r.rsId, rsEnd := r.rsEnd,
                    base := alignUp r.top rsAlign, top := alignUp r.top rsAlign,
                    end_ := r.rsEnd },
          ?_, rfl, rfl, ?_, rfl, rfl, rfl, rfl⟩
  · simp [pack, hp]
  · intro objDelta maxDelta newtop
    simp [expand_top_to]

/-- **C6** witness: packing `rEx6` (`top = 13`) at alignment 16 and placing
`nxEx6` after it. -/
theorem C6_pack_witness :
    ∃ r' nx', pack 16 rEx6 (some nxEx6) = .ok (r', some nx')
      ∧ r'.end_ = alignUp rEx6.top 16
      ∧ r'.isPacked = true
      ∧ (∀ objDelta maxDelta newtop,
          expand_top_to objDelta maxDelta r' newtop = .error .assertFail)
      ∧ nx'.base = alignUp rEx6.top 16
      ∧ nx'.top = alignUp rEx6.top 16
      ∧ nx'.rsId = rEx6.rsId
      ∧ nx'.end_ = rEx6.rsEnd :=
  C6_pack 16 rEx6 nxEx6 rfl

/-- **C3**. On an uncompacted marker whose bitmap respects the size invariant,
compaction visits every set bit: if every surviving (non-null) slot value lies
in the relocatable range, the resulting bitmap holds exactly the originally
set bits whose slot value is non-null, truncated to highest surviving index
plus one (the spec's scenario — slots 5 and 900 marked, slot 900 null at
compaction — is this theorem's witness); if some surviving value lies outside
the relocatable range, compaction fails the assert. -/
theorem C3_compact (st : MarkerState) (mem : Nat → Nat) (rb re : Nat)
    (hc : st.compacted = false)
    (hinv : ∀ o ∈ st.bits, o < st.size) :
    ((∀ o ∈ st.bits, mem (st.ptrBase + o * wordSize) ≠ 0 →
        rb ≤ mem (st.ptrBase + o * wordSize) ∧ mem (st.ptrBase + o * wordSize) < re) →
      compact st mem rb re
        = some { st with
            bits := st.bits.filter fun o => mem (st.ptrBase + o * wordSize) ≠ 0,
            size := (st.bits.filter fun o =>
              mem (st.ptrBase + o * wordSize) ≠ 0).sup id + 1,
            compacted := true })
    ∧ (∀ b ∈ st.bits, mem (st.ptrBase + b * wordSize) ≠ 0 →
        ¬(rb ≤ mem (st.ptrBase + b * wordSize) ∧ mem (st.ptrBase + b * wordSize) < re) →
        compact st mem rb re = none) := by
  have hmeml : ∀ x : Nat,
      x ∈ (List.range st.size).filter (fun o => decide (o ∈ st.bits)) ↔
        x ∈ st.bits := by
    intro x
    simp only [List.mem_filter, List.mem_range, decide_eq_true_eq]
    exact ⟨fun h => h.2, fun h => ⟨hinv x h, h⟩⟩
  constructor
  · intro hall
    have hall' : ∀ o ∈ (List.range st.size).filter (fun o => decide (o ∈ st.bits)),
        mem (st.ptrBase + o * wordSize) ≠ 0 →
        rb ≤ mem (st.ptrBase + o * wordSize) ∧ mem (st.ptrBase + o * wordSize) < re :=
      fun o ho h => hall o ((hmeml o).mp ho) h
    have hfold := cleaner_foldl_char mem st.ptrBase rb re _ hall' st.bits 0
    rw [compact_eq st mem rb re hc _ _ hfold]
    have hA : st.bits \ (((List.range st.size).filter fun o => decide (o ∈ st.bits)).filter
          fun o => decide (mem (st.ptrBase + o * wordSize) = 0)).toFinset
        = st.bits.filter fun o => mem (st.ptrBase + o * wordSize) ≠ 0 := by
      ext x
      simp only [Finset.mem_sdiff, List.mem_toFinset, List.mem_filter,
        decide_eq_true_eq, Finset.mem_filter, hmeml]
      tauto
    have hM_le : ∀ x ∈ st.bits.filter fun o => mem (st.ptrBase + o * wordSize) ≠ 0,
        x ≤ (((List.range st.size).filter fun o => decide (o ∈ st.bits)).filter
          fun o => decide (mem (st.ptrBase + o * wordSize) ≠ 0)).foldl max 0 := by
      intro x hx
      refine mem_le_foldl_max _ 0 x ?_
      simp only [List.mem_filter, decide_eq_true_eq, hmeml]
      exact ⟨(Finset.mem_filter.mp hx).1, (Finset.mem_filter.mp hx).2⟩
    have hmax' : (st.bits.filter fun o =>
          mem (st.ptrBase + o * wordSize) ≠ 0).sup id
        = (((List.range st.size).filter fun o => decide (o ∈ st.bits)).filter
          fun o => decide (mem (st.ptrBase + o * wordSize) ≠ 0)).foldl max 0 := by
      refine Nat.le_antisymm (Finset.sup_le hM_le) ?_
      rcases foldl_max_eq_or_mem (((List.range st.size).filter
          fun o => decide (o ∈ st.bits)).filter
          fun o => decide (mem (st.ptrBase + o * wordSize) ≠ 0)) 0 with h0 | hmem
      · rw [h0]; exact Nat.zero_le _
      · have hmem2 := hmem
        simp only [List.mem_filter, decide_eq_true_eq, hmeml] at hmem2
        exact Finset.le_sup (f := id) (Finset.mem_filter.mpr ⟨hmem2.1, hmem2.2⟩)
    have hresize : bitmapResize (st.bits.filter fun o =>
          mem (st.ptrBase + o * wordSize) ≠ 0)
          ((((List.range st.size).filter fun o => decide (o ∈ st.bits)).filter
            fun o => decide (mem (st.ptrBase + o * wordSize) ≠ 0)).foldl max 0 + 1)
        = st.bits.filter fun o => mem (st.ptrBase + o * wordSize) ≠ 0 :=
      Finset.filter_true_of_mem (fun x hx => Nat.lt_succ_of_le (hM_le x hx))
    rw [hA, hresize, hmax']
  · intro b hb hnz hout
    exact compact_none st mem rb re hc
      (cleaner_foldl_none mem st.ptrBase rb re _ b ((hmeml b).mpr hb) hnz hout _)

/-- **C3** witness: the spec's scenario — 1024 slots, bits 5 and 900 set,
slot 900's live value null — compacts to the single bit 5 and length 6. -/
theorem C3_compact_witness :
    compact c3St c3Mem 100 200 = some ⟨{5}, 6, 0, 8192, true⟩ := by
  have h := (C3_compact c3St c3Mem 100 200 rfl (by decide)).1 (by decide)
  rw [h]
  decide

/-- **C4**. A successful `allocate(n)` returns an address aligned to the
configured object alignment, and the returned range `[p, p + n)` is fully
zero-filled. -/
theorem C4_allocate (objDelta : Nat → Nat) (maxDelta align : Nat)
    (r r' : DumpRegion) (n p : Nat) (ha : 0 < align)
    (h : allocate objDelta maxDelta align r n = .ok (p, r')) :
    p % align = 0 ∧ ∀ a : Nat, p ≤ a → a < p + n → r'.mem a = 0 := by
  simp only [allocate] at h
  cases hexp : expand_top_to objDelta maxDelta r
      (alignUp r.top align + alignUp n align) with
  | error e => rw [hexp] at h; exact absurd h (by simp)
  | ok r2 =>
    rw [hexp] at h
    simp only [Except.ok.injEq, Prod.mk.injEq] at h
    obtain ⟨hp, hr⟩ := h
    subst hp
    subst hr
    refine ⟨alignUp_mod r.top align, fun a ha1 ha2 => ?_⟩
    have hn : n ≤ alignUp n align := le_alignUp n align ha
    have hcond : alignUp r.top align ≤ a ∧
        a < alignUp r.top align + alignUp n align := ⟨ha1, by omega⟩
    simp [hcond]

/-- **C4** witness: allocating 10 bytes at 8-byte alignment from `rEx4`
returns the 8-aligned address 0 with `[0, 10)` zeroed. -/
theorem C4_allocate_witness :
    (0 : Nat) % 8 = 0 ∧ ∀ a : Nat, 0 ≤ a → a < 0 + 10 → rEx4'.mem a = 0 :=
  C4_allocate (fun _ => 0) 0 8 rEx4 rEx4' 10 0 (by decide) rfl

end ArchiveUtils
